import Mathlib

/-!
Verification of the quote-engine estimation and pricing pipeline.

Shallow embedding of the Python sources in `quote_engine/` over ℚ
(Python float arithmetic is idealised as exact rational arithmetic):

* `QE.Pricing.price`            — calculators/pricing.py, `price`
* `QE.HardwareCounts.classify_hardware` — logic/hardware_counts.py
* `QE.Assembly.infer_counts`    — calculators/assembly.py, inner `infer_counts`
* `QE.Assembly.computeScales` / `QE.Install.computeScales`
                                 — the scaling-reconciliation blocks
* `QE.Install.estimate`         — calculators/install.py, `estimate`
* `QE.Edgeband.time_from_parts` — calculators/edgeband.py
* `QE.WebApp.deep_update`       — web/app.py, `_deep_update`
* `QE.WebApp.delivery_estimate` — web/app.py, delivery block of `_compute_project`
* `QE.Html.render_client_quote_display` — output/exporters/html.py,
                                 category-display reconciliation of `render_client_quote`
-/

namespace QE

/-! ## Python primitives -/

/-- Python `str.lower()` on the character list of a string (ASCII case fold,
as all keywords in the sources are ASCII). -/
def pyLower (s : String) : List Char :=
  s.data.map Char.toLower

/-- Python `needle in hay`: `needle` occurs contiguously inside `hay`. -/
def hasSub (needle hay : List Char) : Bool :=
  match hay with
  | [] => needle.isEmpty
  | _ :: t => needle.isPrefixOf hay || hasSub needle t

/-- Python banker's rounding of a rational to the nearest integer
(`round` rounds half to even). -/
def roundHalfEven (x : ℚ) : ℤ :=
  let f := ⌊x⌋
  let frac := x - f
  if frac < 1/2 then f
  else if 1/2 < frac then f + 1
  else if 2 ∣ f then f else f + 1

/-- Python `round(x, d)`. -/
def roundTo (d : ℕ) (x : ℚ) : ℚ :=
  (roundHalfEven (x * 10 ^ d) : ℚ) / 10 ^ d

/-- Python `round(x, 2)`, the rounding used for all money results. -/
def round2 (x : ℚ) : ℚ := roundTo 2 x

/-- Python `int(x)` on a float: truncation toward zero. -/
def pyint (x : ℚ) : ℤ :=
  if 0 ≤ x then ⌊x⌋ else ⌈x⌉

/-- Python `a % b` on floats: `a - b * floor(a / b)`. -/
def pymod (a b : ℚ) : ℚ :=
  a - b * ⌊a / b⌋

/-- Assignment `d[k] = v` on a Python dict modelled as an association list:
replace the first binding of `k`, else append. -/
def assocSet {α : Type} : List (String × α) → String → α → List (String × α)
  | [], k, v => [(k, v)]
  | (k', v') :: t, k, v =>
      if k' = k then (k, v) :: t else (k', v') :: assocSet t k v

/-- Lookup `d.get(k)` on a Python dict modelled as an association list. -/
def assocGet {α : Type} : List (String × α) → String → Option α
  | [], _ => none
  | (k', v') :: t, k => if k' = k then some v' else assocGet t k

/-- A rational that is a whole number of cents. -/
def isCent (x : ℚ) : Prop := ∃ n : ℤ, x = (n : ℚ) / 100

/-! ## PricingEngine — calculators/pricing.py, function `price`

The config-dict plumbing (`policy.get("target_margin", 0.30)` etc.) is
resolved at the boundary: the extracted `gm_target`, `gst_rate` and
`rounding` values are passed as arguments, and the `totals` dict is passed
as its list of values. -/

namespace Pricing

structure PriceSummary where
  subtotal_ex_gst : ℚ
  price_ex_gst : ℚ
  gst : ℚ
  total_inc_gst : ℚ
  deriving DecidableEq, Repr

/-- calculators/pricing.py, `price`. -/
def price (totals : List ℚ) (gm_target gst_rate : ℚ) (rounding : ℤ) : PriceSummary :=
  let ex_gst_subtotal := totals.sum
  let price_ex_gst := ex_gst_subtotal / max (1 - gm_target) (1/10000)
  let gst := price_ex_gst * gst_rate
  let total_inc_gst := price_ex_gst + gst
  if 0 < rounding then
    let p : ℚ := (⌊(price_ex_gst + (rounding : ℚ) / 2) / (rounding : ℚ)⌋ : ℚ) * (rounding : ℚ)
    { subtotal_ex_gst := round2 ex_gst_subtotal
      price_ex_gst := round2 p
      gst := round2 (p * gst_rate)
      total_inc_gst := round2 (p + p * gst_rate) }
  else
    { subtotal_ex_gst := round2 ex_gst_subtotal
      price_ex_gst := round2 price_ex_gst
      gst := round2 gst
      total_inc_gst := round2 total_inc_gst }

end Pricing

/-! ## HardwareClassifier — logic/hardware_counts.py, `classify_hardware` -/

namespace HardwareCounts

/-- One raw hardware line: free-text description and integer quantity. -/
structure HWLine where
  description : String
  qty : ℤ
  deriving DecidableEq, Repr

/-- The six coarse hardware buckets. -/
inductive Bucket where
  | drawer_kits | inner_drawers | hinges | adj_feet | bins | liftup
  deriving DecidableEq, Repr

/-- Classified totals per bucket. -/
structure HWTotals where
  drawer_kits : ℤ
  inner_drawers : ℤ
  hinges : ℤ
  adj_feet : ℤ
  bins : ℤ
  liftup : ℤ
  deriving DecidableEq, Repr

def HWTotals.zero : HWTotals := ⟨0, 0, 0, 0, 0, 0⟩

def HWTotals.get (t : HWTotals) : Bucket → ℤ
  | .drawer_kits => t.drawer_kits
  | .inner_drawers => t.inner_drawers
  | .hinges => t.hinges
  | .adj_feet => t.adj_feet
  | .bins => t.bins
  | .liftup => t.liftup

/-- The ordered keyword-rule chain of `classify_hardware`, applied to the
lower-cased description of one line: the bucket the line's quantity is added
to, or `none` when the line is ignored or unmatched. -/
def lineBucket (d : List Char) : Option Bucket :=
  if hasSub "adj leg".data d || hasSub "adj feet".data d
      || hasSub "adjustable leg".data d || hasSub "adjustable feet".data d then
    some .adj_feet
  else if hasSub "drawer support".data d then
    none
  else if hasSub "drawer kit".data d
      || (hasSub "inner drawer".data d && hasSub "kit".data d) then
    if hasSub "inner".data d then some .inner_drawers else some .drawer_kits
  else if hasSub "hinge".data d then
    some .hinges
  else if hasSub "bin".data d then
    some .bins
  else if hasSub "aventos".data d || hasSub "liftup".data d
      || hasSub "lift-up".data d || hasSub "lift mechanism".data d then
    some .liftup
  else
    none

/-- Add a quantity to the bucket selected for one line (no-op when `none`). -/
def addBucket (t : HWTotals) (b : Option Bucket) (q : ℤ) : HWTotals :=
  match b with
  | none => t
  | some .drawer_kits => { t with drawer_kits := t.drawer_kits + q }
  | some .inner_drawers => { t with inner_drawers := t.inner_drawers + q }
  | some .hinges => { t with hinges := t.hinges + q }
  | some .adj_feet => { t with adj_feet := t.adj_feet + q }
  | some .bins => { t with bins := t.bins + q }
  | some .liftup => { t with liftup := t.liftup + q }

/-- logic/hardware_counts.py, `classify_hardware`. -/
def classify_hardware (hardware_list : List HWLine) : HWTotals :=
  hardware_list.foldl
    (fun totals h => addBucket totals (lineBucket (pyLower h.description)) h.qty)
    HWTotals.zero

end HardwareCounts

/-! ## ProductHardwareInferrer and ScalingReconciler
calculators/assembly.py and calculators/install.py each contain an inner
`infer_counts` helper and an identical scaling block (`scales` from
`map_keys`); the loop body of that block is `scaleFor`. -/

/-- Per-product inferred hardware-count map (keys `drawers`, `inner_drawers`,
`doors`, `feet`, `bins`, plus the derived `hinges` added after inference). -/
structure PCounts where
  drawers : ℚ
  inner_drawers : ℚ
  doors : ℚ
  feet : ℚ
  bins : ℚ
  hinges : ℚ
  deriving DecidableEq, Repr

def PCounts.zero : PCounts := ⟨0, 0, 0, 0, 0, 0⟩

/-- Aggregate predicted totals across products (keys of `predicted_totals`). -/
structure Pred5 where
  drawers : ℚ
  inner_drawers : ℚ
  hinges : ℚ
  feet : ℚ
  bins : ℚ
  deriving DecidableEq, Repr

def Pred5.zero : Pred5 := ⟨0, 0, 0, 0, 0⟩

def Pred5.add (a : Pred5) (c : PCounts) : Pred5 :=
  ⟨a.drawers + c.drawers, a.inner_drawers + c.inner_drawers,
   a.hinges + c.hinges, a.feet + c.feet, a.bins + c.bins⟩

/-- Reconciliation scale factors per category (dict `scales`). -/
structure Scales5 where
  drawers : ℚ
  inner_drawers : ℚ
  hinges : ℚ
  feet : ℚ
  bins : ℚ
  deriving DecidableEq, Repr

/-- Loop body of the scaling block: `if actual > 0 and predicted > 0:
scales[k] = actual / predicted` (the factor stays at its default 1.0
otherwise). -/
def scaleFor (actual predicted : ℚ) : ℚ :=
  if 0 < actual ∧ 0 < predicted then actual / predicted else 1

/-- Scan a lower-cased description for the regex `(\d+)\s*kw` the way
`re.search` does: at the first position where one-or-more digits, optional
whitespace, then `kw` match, return the digit run's value. -/
def findNumThen (kw : List Char) : List Char → Option ℕ
  | [] => none
  | c :: t =>
      if c.isDigit then
        let ds := (c :: t).takeWhile Char.isDigit
        let rest := (c :: t).dropWhile Char.isDigit
        let rest2 := rest.dropWhile Char.isWhitespace
        if kw.isPrefixOf rest2 then
          some (ds.foldl (fun n d => 10 * n + (d.toNat - '0'.toNat)) 0)
        else
          findNumThen kw t
      else
        findNumThen kw t

namespace Assembly

/-- calculators/assembly.py, inner `infer_counts` of `estimate` (the derived
`hinges` entry is added by the caller and is 0 here). -/
def infer_counts (desc : String) (depth_mm : ℚ) : PCounts :=
  let d := pyLower desc
  let drawers : ℚ := match findNumThen "drawer".data d with
    | some n => (n : ℚ)
    | none => 0
  let inner_drawers : ℚ :=
    if hasSub "inner drawer".data d then
      match findNumThen "inner drawer".data d with
      | some n => (n : ℚ)
      | none => 1
    else 0
  let doors : ℚ :=
    if hasSub "door".data d then
      match findNumThen "door".data d with
      | some n => (n : ℚ)
      | none => 1
    else 0
  let bins : ℚ := if hasSub "bin".data d then 1 else 0
  let feet : ℚ := if depth_mm ≠ 0 ∧ 500 ≤ depth_mm then 6 else 0
  ⟨drawers, inner_drawers, doors, feet, bins, 0⟩

/-- calculators/assembly.py, the scaling block of `estimate` (lines building
`scales` from `map_keys`; `hw_totals` always carries its six keys, so the
`if hw_totals:` guard is always taken). -/
def computeScales (hw : HardwareCounts.HWTotals) (predicted : Pred5) : Scales5 :=
  { drawers := scaleFor (hw.drawer_kits : ℚ) predicted.drawers
    inner_drawers := scaleFor (hw.inner_drawers : ℚ) predicted.inner_drawers
    hinges := scaleFor (hw.hinges : ℚ) predicted.hinges
    feet := scaleFor (hw.adj_feet : ℚ) predicted.feet
    bins := scaleFor (hw.bins : ℚ) predicted.bins }

end Assembly

/-! ## Install — calculators/install.py, `estimate`

The `rates`/`rules` dict reads at the top of `estimate` are resolved at the
boundary into the fields of `InstallCfg` (each field is the value of the
corresponding `rates.get`/`rules.get` chain with its default already
applied); the products payload and per-product overrides are passed as
structured lists. -/

/-- One product row of the product list. -/
structure Product where
  item : String
  description : String
  room : String
  width_mm : ℚ
  height_mm : ℚ
  depth_mm : ℚ
  area_m2 : ℚ
  qty : ℤ
  deriving DecidableEq, Repr

/-- A per-product override entry (`overrides["products"][item]`). -/
structure ProductOverride where
  exclude : Bool
  deriving DecidableEq, Repr

namespace Install

/-- Configuration values read by `estimate` (with defaults already applied). -/
structure InstallCfg where
  install_hours : ℚ
  two_person_fraction : ℚ
  one_person_fraction : ℚ
  two_person_rate : ℚ
  one_person_rate : ℚ
  base_minutes_per_m2 : ℚ
  min_minutes_per_product : ℚ
  add_drawer : ℚ
  add_inner : ℚ
  add_hinge : ℚ
  add_foot : ℚ
  add_bin : ℚ
  hinges_per_door : ℚ
  complexity_map : List (String × ℚ)
  deriving Repr

/-- calculators/install.py, `_complexity_multiplier` (over the resolved
`rules["install"]["complexity"]` map). -/
def complexity_multiplier (desc : String) (cmap : List (String × ℚ)) : ℚ :=
  cmap.foldl
    (fun comp km => if hasSub (pyLower km.1) (pyLower desc) then comp * km.2 else comp)
    1

/-- calculators/install.py, inner `infer_counts` of `estimate` (identical to
the assembly one; the derived `hinges` entry is added by the caller). -/
def infer_counts (desc : String) (depth_mm : ℚ) : PCounts :=
  let d := pyLower desc
  let drawers : ℚ := match findNumThen "drawer".data d with
    | some n => (n : ℚ)
    | none => 0
  let inner_drawers : ℚ :=
    if hasSub "inner drawer".data d then
      match findNumThen "inner drawer".data d with
      | some n => (n : ℚ)
      | none => 1
    else 0
  let doors : ℚ :=
    if hasSub "door".data d then
      match findNumThen "door".data d with
      | some n => (n : ℚ)
      | none => 1
    else 0
  let bins : ℚ := if hasSub "bin".data d then 1 else 0
  let feet : ℚ := if depth_mm ≠ 0 ∧ 500 ≤ depth_mm then 6 else 0
  ⟨drawers, inner_drawers, doors, feet, bins, 0⟩

/-- calculators/install.py, the scaling block of `estimate`. -/
def computeScales (hw : HardwareCounts.HWTotals) (predicted : Pred5) : Scales5 :=
  { drawers := scaleFor (hw.drawer_kits : ℚ) predicted.drawers
    inner_drawers := scaleFor (hw.inner_drawers : ℚ) predicted.inner_drawers
    hinges := scaleFor (hw.hinges : ℚ) predicted.hinges
    feet := scaleFor (hw.adj_feet : ℚ) predicted.feet
    bins := scaleFor (hw.bins : ℚ) predicted.bins }

/-- One row of the per-product breakdown (`per_product.append`; the
dimension/room pass-through fields are carried unchanged from the product). -/
structure ProdRow where
  item : String
  description : String
  room : String
  qty : ℤ
  hours : ℚ
  deriving DecidableEq, Repr

/-- The dict returned by `estimate`. -/
structure InstallResult where
  hours : ℚ
  cost : ℚ
  products : List ProdRow
  person_hours : ℚ
  two_person_fraction : ℚ
  one_person_fraction : ℚ
  two_person_rate : ℚ
  one_person_rate : ℚ
  blended_rate : ℚ
  deriving DecidableEq, Repr

/-- calculators/install.py, `estimate`. -/
def estimate (products : List Product) (hardware : List HardwareCounts.HWLine)
    (cfg : InstallCfg) (product_overrides : List (String × ProductOverride)) :
    InstallResult :=
  let override := cfg.install_hours
  -- Crew allocation fractions, normalised to sum to 1 if out of bounds
  let two0 := cfg.two_person_fraction
  let one0 := cfg.one_person_fraction
  let total_frac := max (two0 + one0) 0
  let fracs : ℚ × ℚ :=
    if total_frac ≤ 0 then (1, 0) else (two0 / total_frac, one0 / total_frac)
  let two_person_frac := fracs.1
  let one_person_frac := fracs.2
  let two_person_rate := cfg.two_person_rate
  let one_person_rate := cfg.one_person_rate
  if 0 < override then
    -- Override is site hours; cost weighted by crew allocation and rates
    let site_hours := override
    let blended_rate := two_person_frac * two_person_rate + one_person_frac * one_person_rate
    { hours := round2 site_hours
      cost := round2 (site_hours * blended_rate)
      products := []
      person_hours := round2 (site_hours * (two_person_frac * 2 + one_person_frac * 1))
      two_person_fraction := roundTo 4 two_person_frac
      one_person_fraction := roundTo 4 one_person_frac
      two_person_rate := round2 two_person_rate
      one_person_rate := round2 one_person_rate
      blended_rate := round2 blended_rate }
  else
    -- Auto-estimate from products
    let hw_totals := HardwareCounts.classify_hardware hardware
    let infAcc := products.foldl
      (fun (acc : Pred5 × List (String × PCounts)) p =>
        let c0 := infer_counts p.description p.depth_mm
        let c := { c0 with hinges := c0.doors * cfg.hinges_per_door }
        (acc.1.add c, assocSet acc.2 p.item c))
      (Pred5.zero, [])
    let predicted_totals := infAcc.1
    let perprod_counts := infAcc.2
    -- `hw_totals` always carries its six keys, so `if hw_totals:` holds
    let scales := computeScales hw_totals predicted_totals
    let mainAcc := products.foldl
      (fun (acc : ℚ × List ProdRow) p =>
        let ptype := p.description
        let qty : ℤ := max 1 p.qty
        let comp := complexity_multiplier ptype cfg.complexity_map
        let ov : Option ProductOverride :=
          if p.item = "" then none else assocGet product_overrides p.item
        let hours : ℚ :=
          if (ov.map ProductOverride.exclude).getD false then 0
          else
            let desc_l := pyLower p.description
            let width_m := p.width_mm / 1000
            let minutes : ℚ :=
              if hasSub "floating shelf".data desc_l then 30 * width_m * comp
              else if hasSub "adjustable kick".data desc_l then 15 * width_m * comp
              else
                let area_min := max cfg.min_minutes_per_product (p.area_m2 * cfg.base_minutes_per_m2)
                let c := (assocGet perprod_counts p.item).getD PCounts.zero
                let add_min :=
                  c.drawers * scales.drawers * cfg.add_drawer
                  + c.inner_drawers * scales.inner_drawers * cfg.add_inner
                  + c.hinges * scales.hinges * cfg.add_hinge
                  + c.feet * scales.feet * cfg.add_foot
                  + c.bins * scales.bins * cfg.add_bin
                (area_min + add_min) * comp
            (minutes / 60) * qty
        (acc.1 + hours,
         acc.2 ++ [{ item := p.item, description := p.description, room := p.room,
                     qty := qty, hours := round2 hours }]))
      (0, [])
    let total_person_hours := mainAcc.1
    -- Convert person-hours to site-hours using crew allocation
    let denom := two_person_frac * 2 + one_person_frac * 1
    let site_hours := total_person_hours / max denom (1/10000)
    let blended_rate := two_person_frac * two_person_rate + one_person_frac * one_person_rate
    let cost := site_hours * blended_rate
    { hours := round2 site_hours
      cost := round2 cost
      products := mainAcc.2
      person_hours := round2 total_person_hours
      two_person_fraction := roundTo 4 two_person_frac
      one_person_fraction := roundTo 4 one_person_frac
      two_person_rate := round2 two_person_rate
      one_person_rate := round2 one_person_rate
      blended_rate := round2 blended_rate }

end Install

/-! ## Edgeband parts-based time model — calculators/edgeband.py,
`time_from_parts` -/

namespace Edgeband

/-- One row of the parts list, reduced to the fields `time_from_parts`
reads: the parsed integer quantity (the `int(...)`/`except` fallback yields
0 for missing or unparseable values) and the four edge-flag fields. -/
structure Part where
  qty : ℤ
  ebw1 : Option String
  ebl1 : Option String
  ebw2 : Option String
  ebl2 : Option String
  deriving DecidableEq, Repr

/-- Python `str.strip()`: whitespace removed from both ends, on the
character list of a string. -/
def pyStrip (s : String) : List Char :=
  ((s.data.dropWhile Char.isWhitespace).reverse.dropWhile Char.isWhitespace).reverse

/-- The flag test `val is not None and str(val).strip() != ""`. -/
def flagSet : Option String → Bool
  | none => false
  | some s => !(pyStrip s).isEmpty

/-- calculators/edgeband.py, `time_from_parts` (the
`rates["edgeband"]["minutes_per_edge"]` read, including its `or 1.0`
falsy fallback, is the `minutes_per_edge` argument resolution here). -/
def time_from_parts (parts : List Part) (minutes_per_edge : ℚ) : ℚ :=
  let mpe := if minutes_per_edge = 0 then 1 else minutes_per_edge
  let count_edges : ℤ := parts.foldl
    (fun n p =>
      [p.ebw1, p.ebl1, p.ebw2, p.ebl2].foldl
        (fun m f => if flagSet f then m + (if 0 < p.qty then p.qty else 1) else m)
        n)
    0
  let minutes := (count_edges : ℚ) * mpe
  round2 (minutes / 60)

/-- Per-part edge contribution as the amended specification words it: the
number of non-empty edge-flag fields, multiplied by the part's quantity when
it is positive and counted once per flag otherwise. -/
def partEdgesSpec (p : Part) : ℤ :=
  (([p.ebw1, p.ebl1, p.ebw2, p.ebl2].filter flagSet).length : ℤ)
    * (if 0 < p.qty then p.qty else 1)

/-- The quantity-times-flag-count total the original claim asserts. -/
def claimEdges (parts : List Part) : ℤ :=
  (parts.map (fun p =>
    (([p.ebw1, p.ebl1, p.ebw2, p.ebl2].filter flagSet).length : ℤ) * p.qty)).sum

end Edgeband

/-! ## OverrideMerger — web/app.py, `_deep_update` -/

namespace WebApp

/-- A JSON-like configuration document (the YAML/JSON values
`_deep_update` merges). -/
inductive J where
  | obj : List (String × J) → J
  | arr : List J → J
  | str : String → J
  | num : ℚ → J
  | boolean : Bool → J
  | null : J
  deriving Repr

mutual

/-- web/app.py, `_deep_update` (the in-place mutation of `dst` is modelled
by returning the updated dict): one `deep_step` per override entry, in
order. -/
def deep_update (dst : List (String × J)) : List (String × J) → List (String × J)
  | [] => dst
  | (k, v) :: rest => deep_update (deep_step dst k v) rest
termination_by o => sizeOf o

/-- The loop body of `_deep_update` for one entry `(k, v)` of the override:
if both the override value and the base value at `k` are dicts, merge
recursively, otherwise the override value replaces the base value. -/
def deep_step (dst : List (String × J)) (k : String) (v : J) : List (String × J) :=
  match v, assocGet dst k with
  | J.obj ve, some (J.obj be) => assocSet dst k (J.obj (deep_update be ve))
  | v', _ => assocSet dst k v'
termination_by sizeOf v

end

/-- Membership of a key in a key list. -/
def keyMem (k : String) : List String → Bool
  | [] => false
  | x :: t => x == k || keyMem k t

/-- Boolean no-duplicates check on a key list. -/
def nodupKeys : List String → Bool
  | [] => true
  | k :: t => !keyMem k t && nodupKeys t

mutual

/-- Well-formedness of a document: every object has duplicate-free keys
(the invariant of a parsed Python dict). -/
def wfV : J → Bool
  | J.obj l => nodupKeys (l.map Prod.fst) && wfL l
  | J.arr l => wfA l
  | _ => true

def wfL : List (String × J) → Bool
  | [] => true
  | kv :: t => wfV kv.2 && wfL t

def wfA : List J → Bool
  | [] => true
  | v :: t => wfV v && wfA t

end

/-- Well-formedness of an override document (a dict). -/
def wfO (l : List (String × J)) : Bool :=
  nodupKeys (l.map Prod.fst) && wfL l

/-! ### Delivery — web/app.py, the loading-and-delivery block of
`_compute_project` -/

/-- The `rates["delivery"]` configuration values with defaults applied. -/
structure DeliveryCfg where
  truck_capacity_cbm : ℚ
  load_hours_per_full : ℚ
  unload_hours_per_trip : ℚ
  travel_hours_per_trip : ℚ
  rental_admin_hours : ℚ
  scale_load_with_fill : Bool
  delivery_rate : ℚ
  deriving Repr

/-- web/app.py, `_prod_volume_m3` (`int(p.get("qty", 1) or 1)`: a falsy
quantity falls back to 1). -/
def prod_volume_m3 (p : Product) : ℚ :=
  let w := p.width_mm / 1000
  let h := p.height_mm / 1000
  let d := p.depth_mm / 1000
  let v := max w 0 * max h 0 * max d 0
  let q : ℤ := if p.qty = 0 then 1 else p.qty
  v * (q : ℚ)

/-- The delivery result dict (the nested `hours` dict is flattened into
`load`/`unload`/`travel`/`admin`/`total` fields). -/
structure DeliveryResult where
  cbm : ℚ
  capacity_cbm : ℚ
  trips : ℤ
  load : ℚ
  unload : ℚ
  travel : ℚ
  admin : ℚ
  total : ℚ
  rate : ℚ
  cost : ℚ
  deriving DecidableEq, Repr

/-- web/app.py, the delivery estimation block of `_compute_project`
(total cargo volume, trips, hours and cost). -/
def delivery_estimate (products : List Product)
    (product_overrides : List (String × ProductOverride)) (cfg : DeliveryCfg) :
    DeliveryResult :=
  let total_cbm := products.foldl
    (fun acc p =>
      let ov : Option ProductOverride :=
        if p.item = "" then none else assocGet product_overrides p.item
      if (ov.map ProductOverride.exclude).getD false then acc
      else acc + prod_volume_m3 p)
    0
  let cap := cfg.truck_capacity_cbm
  let load_full_h := cfg.load_hours_per_full
  let unload_h := cfg.unload_hours_per_trip
  let travel_h := cfg.travel_hours_per_trip
  let admin_h := cfg.rental_admin_hours
  let scale_load := cfg.scale_load_with_fill
  let trips : ℤ :=
    if 0 < cap then
      pyint (total_cbm / cap + (if pymod total_cbm cap = 0 then 0 else 1))
    else 0
  let load_h :=
    if scale_load && decide (0 < cap) then (total_cbm / cap) * load_full_h
    else (trips : ℚ) * load_full_h
  let unload_total_h := (trips : ℚ) * unload_h
  let travel_total_h := (trips : ℚ) * travel_h
  let admin_total_h := admin_h
  let delivery_hours := load_h + unload_total_h + travel_total_h + admin_total_h
  let delivery_rate := cfg.delivery_rate
  { cbm := roundTo 3 total_cbm
    capacity_cbm := cap
    trips := trips
    load := round2 load_h
    unload := round2 unload_total_h
    travel := round2 travel_total_h
    admin := round2 admin_total_h
    total := round2 delivery_hours
    rate := delivery_rate
    cost := round2 (delivery_hours * delivery_rate) }

/-- Total cargo volume as the claim words it: Σ(width_m × height_m ×
depth_m × qty) over the products not excluded by a per-product override. -/
def totalVolumeSpec (products : List Product)
    (product_overrides : List (String × ProductOverride)) : ℚ :=
  ((products.filter (fun p =>
      let ov : Option ProductOverride :=
        if p.item = "" then none else assocGet product_overrides p.item
      !(ov.map ProductOverride.exclude).getD false)).map
    (fun p => p.width_mm / 1000 * (p.height_mm / 1000) * (p.depth_mm / 1000) * (p.qty : ℚ))).sum

end WebApp

/-! ## CategoryDisplayReconciler — output/exporters/html.py, the
category-display portion of `render_client_quote` (lines building
`category_display`, `allowances_display`, `surcharge_display` and
`subtotal_display`).  The resolved `allowances_flat` and `surcharge_total`
values (after the `category_totals` overrides) and the final rounded
`price["price_ex_gst"]` are inputs. -/

namespace Html

/-- The internal category totals read through `cat_order`. -/
structure CatTotals where
  materials : ℚ
  edgeband : ℚ
  hardware : ℚ
  cnc : ℚ
  panel_saw : ℚ
  assembly : ℚ
  install : ℚ
  overhead : ℚ
  deriving DecidableEq, Repr

/-- The client-facing display figures produced by `render_client_quote`. -/
structure DisplayOut where
  materials : ℚ
  edgeband : ℚ
  hardware : ℚ
  cnc : ℚ
  panel_saw : ℚ
  assembly : ℚ
  install : ℚ
  overhead : ℚ
  allowances_display : ℚ
  surcharge_display : ℚ
  subtotal_display : ℚ
  deriving DecidableEq, Repr

/-- Sum of the displayed category costs (`sum(category_display.values())`). -/
def DisplayOut.catSum (o : DisplayOut) : ℚ :=
  o.materials + o.edgeband + o.hardware + o.cnc + o.panel_saw
    + o.assembly + o.install + o.overhead

/-- output/exporters/html.py, `render_client_quote` lines 134-170: margin
distribution over categories and reconciliation of the displayed breakdown
with the rounded price by assigning the rounding delta to `install`. -/
def render_client_quote_display (ct : CatTotals)
    (allowances_flat surcharge_total m_target price_final : ℚ) : DisplayOut :=
  let factor := 1 / max (1 - m_target) (1/10000)
  let cd_materials := round2 (ct.materials * factor)
  let cd_edgeband := round2 (ct.edgeband * factor)
  let cd_hardware := round2 (ct.hardware * factor)
  let cd_cnc := round2 (ct.cnc * factor)
  let cd_panel_saw := round2 (ct.panel_saw * factor)
  let cd_assembly := round2 (ct.assembly * factor)
  let cd_install := round2 (ct.install * factor)
  let cd_overhead := round2 (ct.overhead * factor)
  let allowances_display := round2 (allowances_flat * factor)
  let surcharge_display := round2 (surcharge_total * factor)
  let catSum := cd_materials + cd_edgeband + cd_hardware + cd_cnc
    + cd_panel_saw + cd_assembly + cd_install + cd_overhead
  let subtotal_display := round2 (catSum + allowances_display)
  let price_sum_no_round := subtotal_display + surcharge_display
  -- Align categories with the final rounded price: delta goes to install
  let delta := round2 (price_final - price_sum_no_round)
  let cd_install2 := round2 (cd_install + delta)
  let catSum2 := cd_materials + cd_edgeband + cd_hardware + cd_cnc
    + cd_panel_saw + cd_assembly + cd_install2 + cd_overhead
  let subtotal_display2 := round2 (catSum2 + allowances_display)
  { materials := cd_materials
    edgeband := cd_edgeband
    hardware := cd_hardware
    cnc := cd_cnc
    panel_saw := cd_panel_saw
    assembly := cd_assembly
    install := cd_install2
    overhead := cd_overhead
    allowances_display := allowances_display
    surcharge_display := surcharge_display
    subtotal_display := subtotal_display2 }

end Html

/-! # Theorems -/

/-! ## Rounding facts -/

theorem roundHalfEven_intCast (n : ℤ) : roundHalfEven (n : ℚ) = n := by
  unfold roundHalfEven
  simp [Int.floor_intCast]

theorem isCent_round2 (x : ℚ) : isCent (round2 x) :=
  ⟨roundHalfEven (x * 10 ^ 2), by
    unfold round2 roundTo
    norm_num⟩

theorem round2_eq_self {x : ℚ} (h : isCent x) : round2 x = x := by
  obtain ⟨n, rfl⟩ := h
  unfold round2 roundTo
  have h100 : ((n : ℚ) / 100) * 10 ^ 2 = (n : ℚ) := by ring
  rw [h100, roundHalfEven_intCast]
  norm_num

theorem isCent_add {x y : ℚ} (hx : isCent x) (hy : isCent y) : isCent (x + y) := by
  obtain ⟨m, rfl⟩ := hx
  obtain ⟨n, rfl⟩ := hy
  exact ⟨m + n, by push_cast; ring⟩

theorem isCent_sub {x y : ℚ} (hx : isCent x) (hy : isCent y) : isCent (x - y) := by
  obtain ⟨m, rfl⟩ := hx
  obtain ⟨n, rfl⟩ := hy
  exact ⟨m - n, by push_cast; ring⟩

theorem isCent_intCast (n : ℤ) : isCent (n : ℚ) :=
  ⟨100 * n, by push_cast; ring⟩

theorem round2_intCast (n : ℤ) : round2 (n : ℚ) = (n : ℚ) :=
  round2_eq_self (isCent_intCast n)

theorem isCent_int_mul_cent (a : ℤ) (k : ℤ) : isCent ((a : ℚ) * ((k : ℚ) / 100)) :=
  ⟨a * k, by push_cast; ring⟩

/-! ## C2 — pricing round-half-up to the configured increment -/

/-- C2: for every pricing input with a positive rounding increment R (and a
margin for which the division-by-zero clamp is inert, 1 − margin ≥ 1/10000),
the price function returns price_ex_gst = floor((subtotal/(1−margin) + R/2)/R) × R;
in particular with subtotal 1000, margin 0.30, GST 10% and rounding 10 it
returns price_ex_gst = 1430, gst = 143 and total_inc_gst = 1573. -/
theorem price_rounds_half_up_to_increment :
    (∀ (totals : List ℚ) (m r : ℚ) (R : ℤ), 0 < R → 1/10000 ≤ 1 - m →
      (Pricing.price totals m r R).price_ex_gst
        = (⌊(totals.sum / (1 - m) + (R : ℚ) / 2) / (R : ℚ)⌋ : ℚ) * (R : ℚ))
    ∧ Pricing.price [1000] (3/10) (1/10) 10 = ⟨1000, 1430, 143, 1573⟩ := by
  constructor
  · intro totals m r R hR hm
    have hmax : max (1 - m) (1/10000) = 1 - m := max_eq_left hm
    simp only [Pricing.price, hmax, if_pos hR]
    exact round2_eq_self ⟨⌊(totals.sum / (1 - m) + (R : ℚ) / 2) / (R : ℚ)⌋ * R * 100, by
      push_cast; ring⟩
  · simp +decide [Pricing.price, round2, roundTo, roundHalfEven]
    norm_num

/-- C2 witness: the hypotheses hold at the concrete example input and the
theorem yields its rounded price there. -/
theorem price_rounds_half_up_to_increment_witness :
    (0 : ℤ) < 10 ∧ (1 : ℚ)/10000 ≤ 1 - 3/10
    ∧ (Pricing.price [1000] (3/10) (1/10) 10).price_ex_gst
        = (⌊(([1000] : List ℚ).sum / (1 - 3/10) + (10 : ℚ) / 2) / (10 : ℚ)⌋ : ℚ) * (10 : ℚ) :=
  ⟨by norm_num, by norm_num,
   price_rounds_half_up_to_increment.1 [1000] (3/10) (1/10) 10 (by norm_num) (by norm_num)⟩

/-! ## C3 — GST and total are recomputed from the final rounded price -/

/-- C3: with a positive rounding increment and a GST rate expressed in whole
basis points of a percent (r = k/100), the returned gst equals the final
rounded price_ex_gst × gst_rate and total_inc_gst equals price_ex_gst + gst;
moreover gst and total_inc_gst are functions of the final rounded
price_ex_gst only — two inputs with equal rounded prices get equal gst and
totals, independent of the pre-rounding subtotal. -/
theorem gst_recomputed_from_final_price :
    (∀ (totals : List ℚ) (m r : ℚ) (R k : ℤ), 0 < R → r = (k : ℚ) / 100 →
      (Pricing.price totals m r R).gst
          = (Pricing.price totals m r R).price_ex_gst * r
        ∧ (Pricing.price totals m r R).total_inc_gst
          = (Pricing.price totals m r R).price_ex_gst + (Pricing.price totals m r R).gst)
    ∧ (∀ (t₁ t₂ : List ℚ) (m₁ m₂ r : ℚ) (R : ℤ), 0 < R →
      (Pricing.price t₁ m₁ r R).price_ex_gst = (Pricing.price t₂ m₂ r R).price_ex_gst →
      (Pricing.price t₁ m₁ r R).gst = (Pricing.price t₂ m₂ r R).gst
        ∧ (Pricing.price t₁ m₁ r R).total_inc_gst = (Pricing.price t₂ m₂ r R).total_inc_gst) := by
  constructor
  · intro totals m r R k hR hr
    simp only [Pricing.price, if_pos hR]
    set p : ℚ :=
      (⌊(totals.sum / max (1 - m) (1/10000) + (R : ℚ) / 2) / (R : ℚ)⌋ : ℚ) * (R : ℚ) with hp
    have hpInt : p = ((⌊(totals.sum / max (1 - m) (1/10000) + (R : ℚ) / 2) / (R : ℚ)⌋ * R : ℤ) : ℚ) := by
      rw [hp]; push_cast; ring
    have h1 : round2 p = p := by rw [hpInt]; exact round2_intCast _
    have h2 : round2 (p * r) = p * r := by
      rw [hr, hpInt]; exact round2_eq_self (isCent_int_mul_cent _ _)
    have h3 : round2 (p + p * r) = p + p * r := by
      rw [hr, hpInt]
      exact round2_eq_self (isCent_add (isCent_intCast _) (isCent_int_mul_cent _ _))
    exact ⟨by rw [h1, h2], by rw [h1, h2, h3]⟩
  · intro t₁ t₂ m₁ m₂ r R hR
    simp only [Pricing.price, if_pos hR]
    set p₁ : ℚ :=
      (⌊(t₁.sum / max (1 - m₁) (1/10000) + (R : ℚ) / 2) / (R : ℚ)⌋ : ℚ) * (R : ℚ) with hp₁
    set p₂ : ℚ :=
      (⌊(t₂.sum / max (1 - m₂) (1/10000) + (R : ℚ) / 2) / (R : ℚ)⌋ : ℚ) * (R : ℚ) with hp₂
    have e₁ : round2 p₁ = p₁ := by
      rw [hp₁, show ((⌊(t₁.sum / max (1 - m₁) (1/10000) + (R : ℚ) / 2) / (R : ℚ)⌋ : ℚ) * (R : ℚ))
          = ((⌊(t₁.sum / max (1 - m₁) (1/10000) + (R : ℚ) / 2) / (R : ℚ)⌋ * R : ℤ) : ℚ) by
        push_cast; ring]
      exact round2_intCast _
    have e₂ : round2 p₂ = p₂ := by
      rw [hp₂, show ((⌊(t₂.sum / max (1 - m₂) (1/10000) + (R : ℚ) / 2) / (R : ℚ)⌋ : ℚ) * (R : ℚ))
          = ((⌊(t₂.sum / max (1 - m₂) (1/10000) + (R : ℚ) / 2) / (R : ℚ)⌋ * R : ℤ) : ℚ) by
        push_cast; ring]
      exact round2_intCast _
    intro hpe
    have hpp : p₁ = p₂ := by rw [← e₁, ← e₂]; exact hpe
    rw [hpp]
    exact ⟨rfl, rfl⟩

/-- C3 witness: at the example, gst = price_ex_gst × rate and the totals
match; and the distinct subtotals 1000 and 1001 round to the same price and
therefore get the same gst. -/
theorem gst_recomputed_from_final_price_witness :
    (0 : ℤ) < 10 ∧ ((1 : ℚ)/10 = ((10 : ℤ) : ℚ) / 100)
    ∧ (Pricing.price [1000] (3/10) (1/10) 10).gst
        = (Pricing.price [1000] (3/10) (1/10) 10).price_ex_gst * (1/10)
    ∧ (Pricing.price [1000] (3/10) (1/10) 10).price_ex_gst
        = (Pricing.price [1001] (3/10) (1/10) 10).price_ex_gst
    ∧ (Pricing.price [1000] (3/10) (1/10) 10).gst
        = (Pricing.price [1001] (3/10) (1/10) 10).gst := by
  have hpe : (Pricing.price [1000] (3/10) (1/10) 10).price_ex_gst
      = (Pricing.price [1001] (3/10) (1/10) 10).price_ex_gst := by
    simp +decide [Pricing.price, round2, roundTo, roundHalfEven]
    norm_num
  exact ⟨by norm_num, by norm_num,
    (gst_recomputed_from_final_price.1 [1000] (3/10) (1/10) 10 10 (by norm_num) (by norm_num)).1,
    hpe,
    (gst_recomputed_from_final_price.2 [1000] [1001] (3/10) (3/10) (1/10) 10 (by norm_num) hpe).1⟩

/-! ## C1 — the displayed breakdown sums exactly to the rounded price -/

/-- Key algebraic step of the display reconciliation: once every displayed
figure is a whole number of cents, assigning the rounding delta to the
install category makes the breakdown sum to the rounded price exactly. -/
theorem reconcile_sum (cm ce ch cc cp ca ci co ad sd pf : ℚ)
    (hpf : isCent pf) (hcm : isCent cm) (hce : isCent ce) (hch : isCent ch)
    (hcc : isCent cc) (hcp : isCent cp) (hca : isCent ca) (hci : isCent ci)
    (hco : isCent co) (had : isCent ad) (hsd : isCent sd) :
    cm + ce + ch + cc + cp + ca
      + round2 (ci + round2 (pf - (round2 (cm + ce + ch + cc + cp + ca + ci + co + ad) + sd)))
      + co + ad + sd = pf := by
  have h1 : round2 (cm + ce + ch + cc + cp + ca + ci + co + ad)
      = cm + ce + ch + cc + cp + ca + ci + co + ad := by
    apply round2_eq_self
    repeat apply isCent_add
    all_goals assumption
  rw [h1]
  have h2 : round2 (pf - (cm + ce + ch + cc + cp + ca + ci + co + ad + sd))
      = pf - (cm + ce + ch + cc + cp + ca + ci + co + ad + sd) := by
    apply round2_eq_self
    apply isCent_sub hpf
    repeat apply isCent_add
    all_goals assumption
  rw [h2]
  have h3 : round2 (ci + (pf - (cm + ce + ch + cc + cp + ca + ci + co + ad + sd)))
      = ci + (pf - (cm + ce + ch + cc + cp + ca + ci + co + ad + sd)) := by
    apply round2_eq_self
    apply isCent_add hci
    apply isCent_sub hpf
    repeat apply isCent_add
    all_goals assumption
  rw [h3]
  ring

/-- C1: for every input to the client-quote renderer with a final price that
is a whole number of cents (as `price["price_ex_gst"]` always is, being
rounded to 2 decimals by the pricing engine), the displayed category
breakdown — the margin-scaled categories plus the displayed allowances and
surcharges — sums exactly to that price: the residual delta is absorbed
entirely by the install category. -/
theorem display_breakdown_sums_to_price (ct : Html.CatTotals)
    (allowances_flat surcharge_total m_target price_final : ℚ)
    (hpf : round2 price_final = price_final) :
    (Html.render_client_quote_display ct allowances_flat surcharge_total m_target price_final).catSum
      + (Html.render_client_quote_display ct allowances_flat surcharge_total m_target price_final).allowances_display
      + (Html.render_client_quote_display ct allowances_flat surcharge_total m_target price_final).surcharge_display
      = price_final := by
  have hpf' : isCent price_final := by rw [← hpf]; exact isCent_round2 price_final
  simp only [Html.render_client_quote_display, Html.DisplayOut.catSum]
  exact reconcile_sum _ _ _ _ _ _ _ _ _ _ _ hpf'
    (isCent_round2 _) (isCent_round2 _) (isCent_round2 _) (isCent_round2 _)
    (isCent_round2 _) (isCent_round2 _) (isCent_round2 _) (isCent_round2 _)
    (isCent_round2 _) (isCent_round2 _)

/-- C1 witness: a concrete display reconciliation whose breakdown sums to
the rounded price 1430. -/
theorem display_breakdown_sums_to_price_witness :
    round2 (1430 : ℚ) = 1430
    ∧ (Html.render_client_quote_display ⟨100, 50, 25, 10, 5, 200, 300, 40⟩ 20 30 (3/10) 1430).catSum
        + (Html.render_client_quote_display ⟨100, 50, 25, 10, 5, 200, 300, 40⟩ 20 30 (3/10) 1430).allowances_display
        + (Html.render_client_quote_display ⟨100, 50, 25, 10, 5, 200, 300, 40⟩ 20 30 (3/10) 1430).surcharge_display
        = 1430 := by
  have h : round2 (1430 : ℚ) = 1430 := by
    rw [show (1430 : ℚ) = ((1430 : ℤ) : ℚ) by norm_num]
    exact round2_intCast 1430
  exact ⟨h, display_breakdown_sums_to_price ⟨100, 50, 25, 10, 5, 200, 300, 40⟩ 20 30 (3/10) 1430 h⟩

/-! ## C4 — scale factors: classified/predicted when both positive, else 1 -/

/-- C4: each reconciliation scale factor equals classified/predicted exactly
when both paired totals are strictly positive and stays at the default 1.0
otherwise (in particular when the predicted total is 0 even with a positive
classified total, as at classified = 3, predicted = 0); every factor is
strictly positive, and both the assembly and the install scaling blocks
compute exactly these per-category factors. -/
theorem scale_factors_guarded :
    (∀ actual predicted : ℚ,
        (0 < actual ∧ 0 < predicted → scaleFor actual predicted = actual / predicted)
      ∧ (¬(0 < actual ∧ 0 < predicted) → scaleFor actual predicted = 1)
      ∧ 0 < scaleFor actual predicted)
    ∧ (∀ (hw : HardwareCounts.HWTotals) (pred : Pred5),
        Assembly.computeScales hw pred
          = ⟨scaleFor (hw.drawer_kits : ℚ) pred.drawers,
             scaleFor (hw.inner_drawers : ℚ) pred.inner_drawers,
             scaleFor (hw.hinges : ℚ) pred.hinges,
             scaleFor (hw.adj_feet : ℚ) pred.feet,
             scaleFor (hw.bins : ℚ) pred.bins⟩
        ∧ Install.computeScales hw pred
          = ⟨scaleFor (hw.drawer_kits : ℚ) pred.drawers,
             scaleFor (hw.inner_drawers : ℚ) pred.inner_drawers,
             scaleFor (hw.hinges : ℚ) pred.hinges,
             scaleFor (hw.adj_feet : ℚ) pred.feet,
             scaleFor (hw.bins : ℚ) pred.bins⟩)
    ∧ scaleFor 3 0 = 1 := by
  refine ⟨fun actual predicted => ⟨fun h => ?_, fun h => ?_, ?_⟩,
    fun hw pred => ⟨rfl, rfl⟩, ?_⟩
  · unfold scaleFor; rw [if_pos h]
  · unfold scaleFor; rw [if_neg h]
  · unfold scaleFor
    split_ifs with h
    · exact div_pos h.1 h.2
    · exact one_pos
  · unfold scaleFor
    norm_num

/-- C4 witness: at classified = 3, predicted = 2 both totals are positive
and the factor is 3/2. -/
theorem scale_factors_guarded_witness :
    ((0 : ℚ) < 3 ∧ (0 : ℚ) < 2) ∧ scaleFor 3 2 = 3/2 :=
  ⟨⟨by norm_num, by norm_num⟩,
   (scale_factors_guarded.1 3 2).1 ⟨by norm_num, by norm_num⟩⟩

/-! ## C5 — first-match keyword classification of hardware lines -/

theorem HWTotals_get_zero (b : HardwareCounts.Bucket) :
    HardwareCounts.HWTotals.zero.get b = 0 := by
  cases b <;> rfl

theorem addBucket_get (t : HardwareCounts.HWTotals) (ob : Option HardwareCounts.Bucket)
    (q : ℤ) (b : HardwareCounts.Bucket) :
    (HardwareCounts.addBucket t ob q).get b
      = t.get b + (if ob = some b then q else 0) := by
  match ob with
  | none => simp [HardwareCounts.addBucket]
  | some b' =>
    cases b' <;> cases b <;>
      simp [HardwareCounts.addBucket, HardwareCounts.HWTotals.get]

theorem classify_fold_get (ls : List HardwareCounts.HWLine)
    (t : HardwareCounts.HWTotals) (b : HardwareCounts.Bucket) :
    (ls.foldl (fun totals h =>
        HardwareCounts.addBucket totals (HardwareCounts.lineBucket (pyLower h.description)) h.qty)
      t).get b
    = t.get b + (HardwareCounts.classify_hardware ls).get b := by
  induction ls generalizing t with
  | nil =>
    simp [HardwareCounts.classify_hardware, HWTotals_get_zero]
  | cons x ls ih =>
    simp only [List.foldl_cons, HardwareCounts.classify_hardware] at *
    rw [ih, ih (HardwareCounts.addBucket HardwareCounts.HWTotals.zero
      (HardwareCounts.lineBucket (pyLower x.description)) x.qty)]
    rw [addBucket_get, addBucket_get, HWTotals_get_zero]
    ring

/-- C5: each hardware line adds its quantity to at most one bucket — the one
selected by the first matching keyword rule of the fixed priority chain
`lineBucket` — and unmatched or ignored lines contribute nothing to any
bucket; the line "Hinge 165° soft-close" with qty 40 contributes 40 to the
hinges bucket and nothing elsewhere. -/
theorem classify_hardware_first_match :
    (∀ (l : HardwareCounts.HWLine) (ls : List HardwareCounts.HWLine)
        (b : HardwareCounts.Bucket),
      (HardwareCounts.classify_hardware (l :: ls)).get b
        = (if HardwareCounts.lineBucket (pyLower l.description) = some b then l.qty else 0)
          + (HardwareCounts.classify_hardware ls).get b)
    ∧ HardwareCounts.classify_hardware [⟨"Hinge 165° soft-close", 40⟩]
        = ⟨0, 0, 40, 0, 0, 0⟩ := by
  constructor
  · intro l ls b
    show ((l :: ls).foldl (fun totals h =>
        HardwareCounts.addBucket totals (HardwareCounts.lineBucket (pyLower h.description)) h.qty)
      HardwareCounts.HWTotals.zero).get b = _
    rw [List.foldl_cons, classify_fold_get, addBucket_get, HWTotals_get_zero]
    ring
  · decide

/-! ## C6 — inferred counts: feet heuristic and the drawer/door rules -/

/-- C6: the hardware inferrer sets feet = 6 exactly when depth_mm ≥ 500 and
0 otherwise, and a product described "Base 2 Drawer Unit" with depth 600
infers drawers = 2, doors = 0 (the word "drawer" does not trigger the door
rule) and feet = 6. -/
theorem infer_counts_feet_and_example :
    (∀ (desc : String) (depth_mm : ℚ),
      (Assembly.infer_counts desc depth_mm).feet = if 500 ≤ depth_mm then 6 else 0)
    ∧ Assembly.infer_counts "Base 2 Drawer Unit" 600 = ⟨2, 0, 0, 6, 0, 0⟩ := by
  constructor
  · intro desc depth_mm
    show (if depth_mm ≠ 0 ∧ 500 ≤ depth_mm then (6 : ℚ) else 0) = _
    by_cases h : 500 ≤ depth_mm
    · rw [if_pos h, if_pos]
      exact ⟨ne_of_gt (lt_of_lt_of_le (by norm_num : (0:ℚ) < 500) h), h⟩
    · rw [if_neg h, if_neg]
      intro hc
      exact h hc.2
  · simp +decide [Assembly.infer_counts]

/-! ## C7 — a positive manual install-hours override replaces the
per-product computation -/

/-- C7: whenever the configured manual install-hours override is strictly
positive (with crew fractions summing to a positive value and figures that
are whole cents, so the 2-decimal display rounding is inert), the install
estimator returns site hours equal to the override with an empty per-product
list, and cost = override × blended_rate where blended_rate is the
normalized fraction-weighted average of the two-person and one-person
rates. -/
theorem install_override_replaces_per_product
    (products : List Product) (hardware : List HardwareCounts.HWLine)
    (cfg : Install.InstallCfg) (pov : List (String × ProductOverride))
    (hov : 0 < cfg.install_hours)
    (hfrac : 0 < cfg.two_person_fraction + cfg.one_person_fraction)
    (hh : round2 cfg.install_hours = cfg.install_hours)
    (hc : round2 (cfg.install_hours
        * ((cfg.two_person_fraction * cfg.two_person_rate
            + cfg.one_person_fraction * cfg.one_person_rate)
          / (cfg.two_person_fraction + cfg.one_person_fraction)))
      = cfg.install_hours
        * ((cfg.two_person_fraction * cfg.two_person_rate
            + cfg.one_person_fraction * cfg.one_person_rate)
          / (cfg.two_person_fraction + cfg.one_person_fraction))) :
    (Install.estimate products hardware cfg pov).hours = cfg.install_hours
    ∧ (Install.estimate products hardware cfg pov).products = []
    ∧ (Install.estimate products hardware cfg pov).cost
        = cfg.install_hours
          * ((cfg.two_person_fraction * cfg.two_person_rate
              + cfg.one_person_fraction * cfg.one_person_rate)
            / (cfg.two_person_fraction + cfg.one_person_fraction)) := by
  have hmax : max (cfg.two_person_fraction + cfg.one_person_fraction) 0
      = cfg.two_person_fraction + cfg.one_person_fraction :=
    max_eq_left (le_of_lt hfrac)
  have hne : cfg.two_person_fraction + cfg.one_person_fraction ≠ 0 := ne_of_gt hfrac
  have hblend : cfg.two_person_fraction / (cfg.two_person_fraction + cfg.one_person_fraction)
        * cfg.two_person_rate
      + cfg.one_person_fraction / (cfg.two_person_fraction + cfg.one_person_fraction)
        * cfg.one_person_rate
      = (cfg.two_person_fraction * cfg.two_person_rate
          + cfg.one_person_fraction * cfg.one_person_rate)
        / (cfg.two_person_fraction + cfg.one_person_fraction) := by
    field_simp
  simp only [Install.estimate, hmax, if_neg (not_le.mpr hfrac), if_pos hov]
  refine ⟨hh, trivial, ?_⟩
  rw [hblend, hc]

/-- C7 witness: with override 40, fractions 0.8/0.2 and rates 190/95 the
blended rate is 171 and the returned cost is 6840 with an empty per-product
list. -/
theorem install_override_replaces_per_product_witness :
    (0 : ℚ) < 40 ∧ (0 : ℚ) < 8/10 + 2/10
    ∧ (Install.estimate [] [] ⟨40, 8/10, 2/10, 190, 95, 30, 5, 5, 5, 2, 1, 10, 2, []⟩ []).hours = 40
    ∧ (Install.estimate [] [] ⟨40, 8/10, 2/10, 190, 95, 30, 5, 5, 5, 2, 1, 10, 2, []⟩ []).products = []
    ∧ (Install.estimate [] [] ⟨40, 8/10, 2/10, 190, 95, 30, 5, 5, 5, 2, 1, 10, 2, []⟩ []).cost = 6840 := by
  have h40 : round2 (40 : ℚ) = 40 := by
    rw [show (40 : ℚ) = ((40 : ℤ) : ℚ) by norm_num]
    exact round2_intCast 40
  have hcost : ((40 : ℚ) * ((8/10 * 190 + 2/10 * 95) / (8/10 + 2/10))) = 6840 := by norm_num
  have h6840 : round2 ((40 : ℚ) * ((8/10 * 190 + 2/10 * 95) / (8/10 + 2/10)))
      = (40 : ℚ) * ((8/10 * 190 + 2/10 * 95) / (8/10 + 2/10)) := by
    rw [hcost, show (6840 : ℚ) = ((6840 : ℤ) : ℚ) by norm_num]
    exact round2_intCast 6840
  have h := install_override_replaces_per_product [] []
    ⟨40, 8/10, 2/10, 190, 95, 30, 5, 5, 5, 2, 1, 10, 2, []⟩ []
    (by norm_num) (by norm_num) h40 h6840
  exact ⟨by norm_num, by norm_num, h.1, h.2.1, h.2.2.trans hcost⟩

/-! ## C8 — delivery trips are the ceiling of volume over capacity -/

theorem trips_ceil (S C : ℚ) (hC : 0 < C) (hS : 0 ≤ S) :
    pyint (S / C + (if pymod S C = 0 then 0 else 1)) = ⌈S / C⌉ := by
  by_cases h : pymod S C = 0
  · rw [if_pos h, add_zero]
    have hx : S / C = (⌊S / C⌋ : ℚ) := by
      unfold pymod at h
      have hSC : S = C * ⌊S / C⌋ := by linarith [sub_eq_zero.mp h]
      rw [eq_comm, eq_div_iff (ne_of_gt hC)]
      linarith
    rw [hx]
    unfold pyint
    rw [if_pos (by positivity), Int.floor_intCast, Int.ceil_intCast]
  · rw [if_neg h]
    have hfr : S / C ≠ (⌊S / C⌋ : ℚ) := by
      intro he
      apply h
      unfold pymod
      have : S = (⌊S / C⌋ : ℚ) * C := (div_eq_iff (ne_of_gt hC)).mp he
      linarith
    have h0 : (0 : ℚ) ≤ S / C + 1 := by
      have := div_nonneg hS (le_of_lt hC)
      linarith
    unfold pyint
    rw [if_pos h0, Int.floor_add_one]
    symm
    rw [Int.ceil_eq_iff]
    constructor
    · push_cast
      have h1 : (⌊S / C⌋ : ℚ) ≤ S / C := Int.floor_le _
      have h2 : (⌊S / C⌋ : ℚ) ≠ S / C := Ne.symm hfr
      have := lt_of_le_of_ne h1 h2
      linarith
    · push_cast
      have := Int.lt_floor_add_one (S / C)
      linarith

theorem delivery_fold_eq_spec (products : List Product)
    (pov : List (String × ProductOverride))
    (h : ∀ p ∈ products, 0 ≤ p.width_mm ∧ 0 ≤ p.height_mm ∧ 0 ≤ p.depth_mm ∧ 1 ≤ p.qty) :
    ∀ acc : ℚ,
      products.foldl (fun acc p =>
        if (((if p.item = "" then none else assocGet pov p.item).map
            ProductOverride.exclude).getD false) then acc
        else acc + WebApp.prod_volume_m3 p) acc
      = acc + WebApp.totalVolumeSpec products pov := by
  induction products with
  | nil => intro acc; simp [WebApp.totalVolumeSpec]
  | cons p ps ih =>
    intro acc
    have hp := h p (List.mem_cons_self p ps)
    have hps : ∀ q ∈ ps, 0 ≤ q.width_mm ∧ 0 ≤ q.height_mm ∧ 0 ≤ q.depth_mm ∧ 1 ≤ q.qty :=
      fun q hq => h q (List.mem_cons_of_mem p hq)
    have hvol : WebApp.prod_volume_m3 p
        = p.width_mm / 1000 * (p.height_mm / 1000) * (p.depth_mm / 1000) * (p.qty : ℚ) := by
      simp only [WebApp.prod_volume_m3]
      have hq : p.qty ≠ 0 := by omega
      rw [if_neg hq, max_eq_left (by linarith [hp.1] : (0:ℚ) ≤ p.width_mm / 1000),
        max_eq_left (by linarith [hp.2.1] : (0:ℚ) ≤ p.height_mm / 1000),
        max_eq_left (by linarith [hp.2.2.1] : (0:ℚ) ≤ p.depth_mm / 1000)]
    simp only [List.foldl_cons]
    cases hex : (((if p.item = "" then none else assocGet pov p.item).map
        ProductOverride.exclude).getD false) with
    | true =>
      rw [if_pos rfl]
      rw [ih hps acc]
      congr 1
      unfold WebApp.totalVolumeSpec
      rw [List.filter_cons_of_neg (by simp [hex])]
    | false =>
      rw [if_neg (by simp)]
      rw [ih hps (acc + WebApp.prod_volume_m3 p)]
      unfold WebApp.totalVolumeSpec
      rw [List.filter_cons_of_pos (by simp [hex]), List.map_cons, List.sum_cons, hvol]
      ring

theorem totalVolumeSpec_nonneg (products : List Product)
    (pov : List (String × ProductOverride))
    (h : ∀ p ∈ products, 0 ≤ p.width_mm ∧ 0 ≤ p.height_mm ∧ 0 ≤ p.depth_mm ∧ 1 ≤ p.qty) :
    0 ≤ WebApp.totalVolumeSpec products pov := by
  unfold WebApp.totalVolumeSpec
  apply List.sum_nonneg
  intro x hx
  obtain ⟨p, hpmem, rfl⟩ := List.mem_map.mp hx
  have hp := h p (List.mem_of_mem_filter hpmem)
  have hq : (0 : ℚ) ≤ (p.qty : ℚ) := by
    have : (0 : ℤ) ≤ p.qty := by omega
    exact_mod_cast this
  have h1 : (0:ℚ) ≤ p.width_mm / 1000 := by linarith [hp.1]
  have h2 : (0:ℚ) ≤ p.height_mm / 1000 := by linarith [hp.2.1]
  have h3 : (0:ℚ) ≤ p.depth_mm / 1000 := by linarith [hp.2.2.1]
  exact mul_nonneg (mul_nonneg (mul_nonneg h1 h2) h3) hq

/-- C8: for every delivery computation with truck capacity > 0 over products
with non-negative dimensions and quantity ≥ 1, the number of trips equals
ceil(total cargo volume / truck capacity), where the total cargo volume is
Σ(width_m × height_m × depth_m × qty) over products not excluded by a
per-product override. -/
theorem delivery_trips_is_ceiling (products : List Product)
    (pov : List (String × ProductOverride)) (cfg : WebApp.DeliveryCfg)
    (hcap : 0 < cfg.truck_capacity_cbm)
    (hprod : ∀ p ∈ products, 0 ≤ p.width_mm ∧ 0 ≤ p.height_mm ∧ 0 ≤ p.depth_mm ∧ 1 ≤ p.qty) :
    (WebApp.delivery_estimate products pov cfg).trips
      = ⌈WebApp.totalVolumeSpec products pov / cfg.truck_capacity_cbm⌉ := by
  have hfold := delivery_fold_eq_spec products pov hprod 0
  rw [zero_add] at hfold
  simp only [WebApp.delivery_estimate]
  rw [hfold, if_pos hcap,
    trips_ceil _ _ hcap (totalVolumeSpec_nonneg products pov hprod)]

/-- C8 witness: a 2 m × 2.2 m × 5 m product (22 m³) against a 15 m³ truck
capacity yields 2 trips. -/
theorem delivery_trips_is_ceiling_witness :
    (0 : ℚ) < 15
    ∧ (∀ p ∈ [(⟨"P1", "Tall Cabinet", "Kitchen", 2000, 2200, 5000, 22/5, 1⟩ : Product)],
        0 ≤ p.width_mm ∧ 0 ≤ p.height_mm ∧ 0 ≤ p.depth_mm ∧ 1 ≤ p.qty)
    ∧ (WebApp.delivery_estimate
        [⟨"P1", "Tall Cabinet", "Kitchen", 2000, 2200, 5000, 22/5, 1⟩] []
        ⟨15, 3, 1/2, 1, 1, true, 110⟩).trips = 2 := by
  have hmem : ∀ p ∈ [(⟨"P1", "Tall Cabinet", "Kitchen", 2000, 2200, 5000, 22/5, 1⟩ : Product)],
      0 ≤ p.width_mm ∧ 0 ≤ p.height_mm ∧ 0 ≤ p.depth_mm ∧ 1 ≤ p.qty := by
    intro p hp
    rw [List.mem_singleton] at hp
    subst hp
    refine ⟨by norm_num, by norm_num, by norm_num, by norm_num⟩
  have h := delivery_trips_is_ceiling
    [⟨"P1", "Tall Cabinet", "Kitchen", 2000, 2200, 5000, 22/5, 1⟩] []
    ⟨15, 3, 1/2, 1, 1, true, 110⟩ (by norm_num) hmem
  refine ⟨by norm_num, hmem, h.trans ?_⟩
  have hspec : WebApp.totalVolumeSpec
      [⟨"P1", "Tall Cabinet", "Kitchen", 2000, 2200, 5000, 22/5, 1⟩] [] = 22 := by
    simp [WebApp.totalVolumeSpec, assocGet]
    norm_num
  rw [hspec]
  show ⌈(22 : ℚ) / 15⌉ = 2
  rw [show ((2 : ℤ)) = ((2 : ℤ)) from rfl, Int.ceil_eq_iff]
  constructor <;> norm_num

/-! ## C9 — deep-merge idempotence -/

theorem assocGet_assocSet_self {α : Type} (l : List (String × α)) (k : String) (v : α) :
    assocGet (assocSet l k v) k = some v := by
  induction l with
  | nil => simp [assocSet, assocGet]
  | cons kv t ih =>
    obtain ⟨k', v'⟩ := kv
    by_cases h : k' = k
    · simp [assocSet, assocGet, h]
    · simp [assocSet, assocGet, h, ih]

theorem assocGet_assocSet_ne {α : Type} (l : List (String × α)) (k k' : String) (v : α)
    (h : k' ≠ k) : assocGet (assocSet l k v) k' = assocGet l k' := by
  induction l with
  | nil => simp [assocSet, assocGet, Ne.symm h]
  | cons kv t ih =>
    obtain ⟨k₁, v₁⟩ := kv
    by_cases h₁ : k₁ = k
    · subst h₁
      simp [assocSet, assocGet, Ne.symm h]
    · simp only [assocSet, if_neg h₁, assocGet]
      by_cases h₂ : k₁ = k'
      · simp [h₂]
      · simp [h₂, ih]

theorem assocSet_self {α : Type} (l : List (String × α)) (k : String) (v : α)
    (h : assocGet l k = some v) : assocSet l k v = l := by
  induction l with
  | nil => simp [assocGet] at h
  | cons kv t ih =>
    obtain ⟨k', v'⟩ := kv
    by_cases hk : k' = k
    · subst hk
      have h' : v' = v := by simpa [assocGet] using h
      simp [assocSet, h']
    · simp only [assocGet, if_neg hk] at h
      simp [assocSet, hk, ih h]

theorem keyMem_iff (k : String) (l : List String) : WebApp.keyMem k l = true ↔ k ∈ l := by
  induction l with
  | nil => simp [WebApp.keyMem]
  | cons x t ih =>
    simp only [WebApp.keyMem, Bool.or_eq_true, beq_iff_eq, List.mem_cons, ih]
    constructor
    · rintro (h | h)
      · exact Or.inl h.symm
      · exact Or.inr h
    · rintro (h | h)
      · exact Or.inl h.symm
      · exact Or.inr h

theorem assocGet_of_nodup {α : Type} (l : List (String × α)) (k : String) (v : α)
    (hn : WebApp.nodupKeys (l.map Prod.fst) = true) (hm : (k, v) ∈ l) :
    assocGet l k = some v := by
  induction l with
  | nil => cases hm
  | cons kv t ih =>
    obtain ⟨k', v'⟩ := kv
    simp only [List.map_cons, WebApp.nodupKeys, Bool.and_eq_true, Bool.not_eq_true'] at hn
    rcases List.mem_cons.mp hm with heq | hmt
    · obtain ⟨hk, hv⟩ := Prod.mk.injEq .. ▸ heq
      subst hk
      subst hv
      simp [assocGet]
    · by_cases hk : k' = k
      · subst hk
        exfalso
        have hmem : k' ∈ t.map Prod.fst := List.mem_map.mpr ⟨(k', v), hmt, rfl⟩
        rw [← keyMem_iff] at hmem
        rw [hn.1] at hmem
        cases hmem
      · simp only [assocGet, if_neg hk]
        exact ih hn.2 hmt

theorem sizeOf_pos_list {α : Type} [SizeOf α] (o : List α) : 0 < sizeOf o := by
  cases o <;> simp_arith

theorem assocGet_deep_step_ne (d : List (String × WebApp.J)) (k₁ : String)
    (v : WebApp.J) (k : String) (h : k ≠ k₁) :
    assocGet (WebApp.deep_step d k₁ v) k = assocGet d k := by
  unfold WebApp.deep_step
  split
  · exact assocGet_assocSet_ne _ _ _ _ h
  · exact assocGet_assocSet_ne _ _ _ _ h

theorem assocGet_deep_update_notmem (o : List (String × WebApp.J))
    (d : List (String × WebApp.J)) (k : String) (h : k ∉ o.map Prod.fst) :
    assocGet (WebApp.deep_update d o) k = assocGet d k := by
  induction o generalizing d with
  | nil => simp [WebApp.deep_update]
  | cons kv rest ih =>
    obtain ⟨k₁, v⟩ := kv
    simp only [List.map_cons, List.mem_cons] at h
    push_neg at h
    simp only [WebApp.deep_update]
    rw [ih _ h.2]
    exact assocGet_deep_step_ne _ _ _ _ h.1

theorem deep_update_absorb (n : ℕ) : ∀ (o d : List (String × WebApp.J)),
    sizeOf o ≤ n → WebApp.wfL o = true →
    (∀ kv ∈ o, assocGet d kv.1 = some kv.2) →
    WebApp.deep_update d o = d := by
  induction n with
  | zero =>
    intro o d hs _ _
    have := sizeOf_pos_list o
    omega
  | succ n ih =>
    intro o d hs hwf hget
    cases o with
    | nil => simp [WebApp.deep_update]
    | cons kv rest =>
      obtain ⟨k, v⟩ := kv
      have hgk : assocGet d k = some v := hget (k, v) (List.mem_cons_self _ _)
      have hwf' : WebApp.wfV v = true ∧ WebApp.wfL rest = true := by
        simpa [WebApp.wfL] using hwf
      have hsizes : sizeOf rest ≤ n ∧ sizeOf v + 1 ≤ n := by
        simp_arith at hs
        omega
      simp only [WebApp.deep_update]
      have hstep : WebApp.deep_step d k v = d := by
        unfold WebApp.deep_step
        rw [hgk]
        cases v with
        | obj ve =>
          show assocSet d k (WebApp.J.obj (WebApp.deep_update ve ve)) = d
          have hwv : WebApp.nodupKeys (ve.map Prod.fst) = true ∧ WebApp.wfL ve = true := by
            have := hwf'.1
            simpa [WebApp.wfV] using this
          have hve : WebApp.deep_update ve ve = ve := by
            apply ih ve ve (by simp_arith at hsizes; omega) hwv.2
            intro kv hkv
            exact assocGet_of_nodup ve kv.1 kv.2 hwv.1 hkv
          rw [hve]
          exact assocSet_self d k _ hgk
        | arr l =>
          exact assocSet_self d k _ hgk
        | str s =>
          exact assocSet_self d k _ hgk
        | num q =>
          exact assocSet_self d k _ hgk
        | boolean bv =>
          exact assocSet_self d k _ hgk
        | null =>
          exact assocSet_self d k _ hgk
      rw [hstep]
      exact ih rest d hsizes.1 hwf'.2 (fun kv hm => hget kv (List.mem_cons_of_mem _ hm))

theorem deep_update_idem_aux (n : ℕ) : ∀ (o b : List (String × WebApp.J)),
    sizeOf o ≤ n → WebApp.wfO o = true →
    WebApp.deep_update (WebApp.deep_update b o) o = WebApp.deep_update b o := by
  induction n with
  | zero =>
    intro o b hs _
    have := sizeOf_pos_list o
    omega
  | succ n ih =>
    intro o b hs hwf
    cases o with
    | nil => simp [WebApp.deep_update]
    | cons kv rest =>
      obtain ⟨k, v⟩ := kv
      obtain ⟨⟨hkm, hnd⟩, hwv, hwl⟩ :
          (WebApp.keyMem k (rest.map Prod.fst) = false
            ∧ WebApp.nodupKeys (rest.map Prod.fst) = true)
          ∧ WebApp.wfV v = true ∧ WebApp.wfL rest = true := by
        simpa [WebApp.wfO, WebApp.nodupKeys, WebApp.wfL] using hwf
      have hw2 : WebApp.wfO rest = true := by
        simp [WebApp.wfO]
        exact ⟨hnd, hwl⟩
      have hknotin : k ∉ rest.map Prod.fst := by
        intro hm
        have := (keyMem_iff k (rest.map Prod.fst)).mpr hm
        rw [hkm] at this
        cases this
      have hsz_rest : sizeOf rest ≤ n := by simp_arith at hs; omega
      have hsz_v : sizeOf v ≤ n := by simp_arith at hs; omega
      simp only [WebApp.deep_update]
      set b₁ := WebApp.deep_step b k v with hb₁
      set D := WebApp.deep_update b₁ rest with hD
      have hDk : assocGet D k = assocGet b₁ k := by
        rw [hD]
        exact assocGet_deep_update_notmem rest b₁ k hknotin
      have hstep : WebApp.deep_step D k v = D := by
        cases v with
        | obj ve =>
          have hve : WebApp.nodupKeys (ve.map Prod.fst) = true ∧ WebApp.wfL ve = true := by
            simpa [WebApp.wfV] using hwv
          have hwve : WebApp.wfO ve = true := by
            simp [WebApp.wfO]
            exact hve
          have hszve : sizeOf ve ≤ n := by simp_arith at hsz_v; omega
          have habs : WebApp.deep_update ve ve = ve :=
            deep_update_absorb (sizeOf ve) ve ve le_rfl hve.2
              (fun kv hkv => assocGet_of_nodup ve kv.1 kv.2 hve.1 hkv)
          obtain ⟨W, hW, hWidem⟩ : ∃ W, assocGet b₁ k = some (WebApp.J.obj W)
              ∧ WebApp.deep_update W ve = W := by
            rw [hb₁]
            unfold WebApp.deep_step
            cases hbk : assocGet b k with
            | none => exact ⟨ve, assocGet_assocSet_self _ _ _, habs⟩
            | some w =>
              cases w with
              | obj be =>
                exact ⟨WebApp.deep_update be ve, assocGet_assocSet_self _ _ _,
                  ih ve be hszve hwve⟩
              | arr l => exact ⟨ve, assocGet_assocSet_self _ _ _, habs⟩
              | str s => exact ⟨ve, assocGet_assocSet_self _ _ _, habs⟩
              | num q => exact ⟨ve, assocGet_assocSet_self _ _ _, habs⟩
              | boolean bv => exact ⟨ve, assocGet_assocSet_self _ _ _, habs⟩
              | null => exact ⟨ve, assocGet_assocSet_self _ _ _, habs⟩
          unfold WebApp.deep_step
          rw [hDk.trans hW]
          show assocSet D k (WebApp.J.obj (WebApp.deep_update W ve)) = D
          rw [hWidem]
          exact assocSet_self D k _ (hDk.trans hW)
        | arr l =>
          have hb₁k : assocGet b₁ k = some (WebApp.J.arr l) := by
            rw [hb₁]
            unfold WebApp.deep_step
            cases hbk : assocGet b k with
            | none => exact assocGet_assocSet_self _ _ _
            | some w => cases w <;> exact assocGet_assocSet_self _ _ _
          unfold WebApp.deep_step
          exact assocSet_self D k _ (hDk.trans hb₁k)
        | str s =>
          have hb₁k : assocGet b₁ k = some (WebApp.J.str s) := by
            rw [hb₁]
            unfold WebApp.deep_step
            cases hbk : assocGet b k with
            | none => exact assocGet_assocSet_self _ _ _
            | some w => cases w <;> exact assocGet_assocSet_self _ _ _
          unfold WebApp.deep_step
          exact assocSet_self D k _ (hDk.trans hb₁k)
        | num q =>
          have hb₁k : assocGet b₁ k = some (WebApp.J.num q) := by
            rw [hb₁]
            unfold WebApp.deep_step
            cases hbk : assocGet b k with
            | none => exact assocGet_assocSet_self _ _ _
            | some w => cases w <;> exact assocGet_assocSet_self _ _ _
          unfold WebApp.deep_step
          exact assocSet_self D k _ (hDk.trans hb₁k)
        | boolean bv =>
          have hb₁k : assocGet b₁ k = some (WebApp.J.boolean bv) := by
            rw [hb₁]
            unfold WebApp.deep_step
            cases hbk : assocGet b k with
            | none => exact assocGet_assocSet_self _ _ _
            | some w => cases w <;> exact assocGet_assocSet_self _ _ _
          unfold WebApp.deep_step
          exact assocSet_self D k _ (hDk.trans hb₁k)
        | null =>
          have hb₁k : assocGet b₁ k = some WebApp.J.null := by
            rw [hb₁]
            unfold WebApp.deep_step
            cases hbk : assocGet b k with
            | none => exact assocGet_assocSet_self _ _ _
            | some w => cases w <;> exact assocGet_assocSet_self _ _ _
          unfold WebApp.deep_step
          exact assocSet_self D k _ (hDk.trans hb₁k)
      rw [hstep]
      exact ih rest b₁ hsz_rest hw2

/-- C9: the override deep-merge is idempotent in the override argument —
for every base configuration and every well-formed override document
(objects with duplicate-free keys, the invariant of a parsed dict), merging
the same override document twice yields the same effective configuration as
merging it once. -/
theorem deep_update_idempotent (b o : List (String × WebApp.J))
    (h : WebApp.wfO o = true) :
    WebApp.deep_update (WebApp.deep_update b o) o = WebApp.deep_update b o :=
  deep_update_idem_aux (sizeOf o) o b le_rfl h

/-- C9 witness: a concrete base and override document (with a nested map, a
replaced scalar and a fresh key) for which merging twice equals merging
once. -/
theorem deep_update_idempotent_witness :
    WebApp.wfO [("b", WebApp.J.obj [("c", WebApp.J.num 3), ("d", WebApp.J.num 4)]),
        ("e", WebApp.J.str "x")] = true
    ∧ WebApp.deep_update
        (WebApp.deep_update [("a", WebApp.J.num 1), ("b", WebApp.J.obj [("c", WebApp.J.num 2)])]
          [("b", WebApp.J.obj [("c", WebApp.J.num 3), ("d", WebApp.J.num 4)]),
           ("e", WebApp.J.str "x")])
        [("b", WebApp.J.obj [("c", WebApp.J.num 3), ("d", WebApp.J.num 4)]),
         ("e", WebApp.J.str "x")]
      = WebApp.deep_update [("a", WebApp.J.num 1), ("b", WebApp.J.obj [("c", WebApp.J.num 2)])]
          [("b", WebApp.J.obj [("c", WebApp.J.num 3), ("d", WebApp.J.num 4)]),
           ("e", WebApp.J.str "x")] := by
  have hwf : WebApp.wfO [("b", WebApp.J.obj [("c", WebApp.J.num 3), ("d", WebApp.J.num 4)]),
      ("e", WebApp.J.str "x")] = true := by
    simp +decide [WebApp.wfO, WebApp.wfL, WebApp.wfV, WebApp.nodupKeys, WebApp.keyMem]
  exact ⟨hwf, deep_update_idempotent _ _ hwf⟩

/-! ## C10 — parts-based edgeband time model -/

theorem flag_fold (fl : List (Option String)) (w : ℤ) (n : ℤ) :
    fl.foldl (fun m f => if Edgeband.flagSet f then m + w else m) n
      = n + ((fl.filter Edgeband.flagSet).length : ℤ) * w := by
  induction fl generalizing n with
  | nil => simp
  | cons f t ih =>
    by_cases h : Edgeband.flagSet f = true
    · simp only [List.foldl_cons, if_pos h, List.filter_cons_of_pos h, List.length_cons]
      rw [ih]
      push_cast
      ring
    · simp only [List.foldl_cons, if_neg h, List.filter_cons_of_neg h]
      exact ih n

theorem count_edges_eq (parts : List Edgeband.Part) : ∀ n : ℤ,
    parts.foldl (fun n p => [p.ebw1, p.ebl1, p.ebw2, p.ebl2].foldl
      (fun m f => if Edgeband.flagSet f then m + (if 0 < p.qty then p.qty else 1) else m) n) n
    = n + (parts.map Edgeband.partEdgesSpec).sum := by
  induction parts with
  | nil => intro n; simp
  | cons p t ih =>
    intro n
    rw [List.foldl_cons, ih, flag_fold, List.map_cons, List.sum_cons]
    simp only [Edgeband.partEdgesSpec]
    ring

/-- C10 counterexample: for a single part with quantity 0 and one non-empty
edge flag, the claimed formula (quantity × flag count × minutes-per-edge/60)
gives 0 hours, but the code returns 0.02 hours — a part with non-positive
quantity contributes 1 per flagged edge, not its quantity. -/
theorem time_from_parts_qty_zero_counterexample :
    Edgeband.time_from_parts [⟨0, some "X", none, none, none⟩] 1 = 1/50
    ∧ ((Edgeband.claimEdges [⟨0, some "X", none, none, none⟩] : ℚ) * 1 / 60 = 0)
    ∧ Edgeband.time_from_parts [⟨0, some "X", none, none, none⟩] 1
        ≠ (Edgeband.claimEdges [⟨0, some "X", none, none, none⟩] : ℚ) * 1 / 60 := by
  have h1 : Edgeband.time_from_parts [⟨0, some "X", none, none, none⟩] 1 = 1/50 := by
    simp +decide [Edgeband.time_from_parts, Edgeband.flagSet, round2, roundTo, roundHalfEven]
    norm_num [Int.fract]
  have h2 : ((Edgeband.claimEdges [⟨0, some "X", none, none, none⟩] : ℚ) * 1 / 60 = 0) := by
    simp +decide [Edgeband.claimEdges, Edgeband.flagSet]
  exact ⟨h1, h2, by rw [h1, h2]; norm_num⟩

/-- C10 (amended): the parts-based edgeband time model returns hours =
round to 2 decimals of (Σ over parts of (number of the part's non-empty
edge-flag fields among EBW1, EBL1, EBW2, EBL2) × (the part's quantity when
positive, else 1)) × minutes-per-edge / 60, where a configured
minutes-per-edge of 0 falls back to 1. -/
theorem time_from_parts_amended (parts : List Edgeband.Part) (minutes_per_edge : ℚ) :
    Edgeband.time_from_parts parts minutes_per_edge
      = round2 ((((parts.map Edgeband.partEdgesSpec).sum : ℤ) : ℚ)
          * (if minutes_per_edge = 0 then 1 else minutes_per_edge) / 60) := by
  simp only [Edgeband.time_from_parts]
  rw [count_edges_eq parts 0]
  norm_num

end QE
